import Mathlib

/-!
# Verification of the patient-aware aggregation and partitioning pipeline

Shallow embedding of the data-wrangling core of the CIS537 replication
notebooks: patient-level train/test splitting, imaging and tabular sample
aggregation, two-pass normalization, and feature-name discovery.  Numeric
values are modelled as rationals; the pseudo-random generator behind
`np.random.seed` / `np.random.choice` is modelled by an explicit linear
congruential generator threaded as state.
-/

namespace CIS537

/-! ## Patient-level splitter

Embeds the notebook cell

  np.random.seed(0)
  training_patients = np.random.choice(patients_list, replace=False, size=455)
  testing_patients = [p for p in patients_list if p not in training_patients]

`np.random.choice(..., replace=False, size=k)` is a seeded pseudo-random
sample without replacement; we model the generator by an LCG.  The hard-coded
size 455 equals round(0.8 * 569) for the notebook's population of 569
patients, so the splitter is embedded with the size parameter computed as
`round(train_fraction * N)`. -/

/-- One step of the linear congruential generator modelling the numpy
pseudo-random stream (Knuth's MMIX multiplier, modulo 2^64). -/
def lcgNext (s : Nat) : Nat :=
  (6364136223846793005 * s + 1442695040888963407) % (2 ^ 64)

/-- `np.random.seed(seed)`: the generator state is completely determined by
the seed argument; any previously existing state is discarded. -/
def seedState (seed : Nat) : Nat :=
  lcgNext (seed % (2 ^ 64))

/-- Sample `k` elements from `xs` without replacement, consuming the
pseudo-random state: at each step the generator picks one remaining index;
the chosen element is removed from the pool.  Models
`np.random.choice(xs, replace=False, size=k)`. -/
def sampleWithoutReplacement : Nat → Nat → List String → List String
  | _, 0, _ => []
  | st, k + 1, l =>
    if h : l.length = 0 then []
    else
      have hi : lcgNext st % l.length < l.length :=
        Nat.mod_lt _ (Nat.pos_of_ne_zero h)
      l.get ⟨lcgNext st % l.length, hi⟩ ::
        sampleWithoutReplacement (lcgNext st) k (l.eraseIdx (lcgNext st % l.length))

/-- The notebook's train/test split with an explicit train-set size `k`:
seed the generator, draw `k` patients without replacement as the training
set, and keep every patient of the population not drawn as the test set. -/
def choiceSplit (seed : Nat) (patients_list : List String) (k : Nat) :
    List String × List String :=
  let training := sampleWithoutReplacement (seedState seed) k patients_list
  (training, patients_list.filter (fun p => decide (p ∉ training)))

/-- `split_patients(patient_ids, train_fraction, seed)`: the train-set size is
`round(train_fraction * |patient_ids|)` (the notebook hard-codes
455 = round(0.8 * 569)); the test set is everything not selected. -/
def split_patients (patient_ids : List String) (train_fraction : ℚ) (seed : Nat) :
    List String × List String :=
  choiceSplit seed patient_ids (round (train_fraction * patient_ids.length)).toNat

/-- A full notebook run of the splitting cell starting from an arbitrary
ambient generator state `g`: `np.random.seed(seed)` discards `g` before the
draw, so the ambient state does not feed into the split. -/
def notebookRunSplit (g : Nat) (patient_ids : List String) (train_fraction : ℚ)
    (seed : Nat) : List String × List String :=
  let _discarded := lcgNext g
  split_patients patient_ids train_fraction seed

/-! ## Partition assignment during imaging aggregation (notebook section 1.3.1)

Embeds the loop body

  is_test = patient_id in testing_patients
  is_train = patient_id in training_patients
  assert not (is_test and is_train)
  if is_test: test_features.append(...); test_classes.append(...)
  elif is_train: train_features.append(...); train_classes.append(...)
  else: raise ValueError('Patient ID not found!')
-/

/-- The two ways the partition-assignment loop can abort: the
`assert not (is_test and is_train)` assertion, and the
`ValueError('Patient ID not found!')`. -/
inductive AssignError
  | assertionFailed
  | patientNotFound
deriving DecidableEq

/-- Assign one sample's patient id to a partition; `Except.ok true` means the
test partition, `Except.ok false` the training partition. -/
def assignPartition (testing training : List String) (pid : String) :
    Except AssignError Bool :=
  let is_test := decide (pid ∈ testing)
  let is_train := decide (pid ∈ training)
  if is_test && is_train then Except.error AssignError.assertionFailed
  else if is_test then Except.ok true
  else if is_train then Except.ok false
  else Except.error AssignError.patientNotFound

/-- The full aggregation loop over samples `(patient_id, features)`: each
sample's feature dictionary together with the patient's label is appended to
the train or test list according to the patient id; a bad patient id aborts
the whole run.  Returns `(train pairs, test pairs)` in loop order. -/
def processSamples {φ : Type} (label : String → Bool) (testing training : List String) :
    List (String × φ) → Except AssignError (List (φ × Bool) × List (φ × Bool))
  | [] => Except.ok ([], [])
  | (pid, feats) :: rest =>
    match assignPartition testing training pid with
    | Except.error e => Except.error e
    | Except.ok true =>
      match processSamples label testing training rest with
      | Except.error e => Except.error e
      | Except.ok out => Except.ok (out.1, (feats, label pid) :: out.2)
    | Except.ok false =>
      match processSamples label testing training rest with
      | Except.error e => Except.error e
      | Except.ok out => Except.ok ((feats, label pid) :: out.1, out.2)

/-! ## Normalizer (notebook section 1.3.3)

A sample is modelled as a function from (row, column, channel) indices to a
rational value, mirroring `data[sample_number, i, j, feature_number]`.  The
cross-sample pass embeds

  full_data = np.concatenate((train_data, test_data))
  max_image = np.abs(full_data).max(axis=0)
  train_data = np.divide(train_data, max_image + epsilon)
  test_data = np.divide(test_data, max_image + epsilon)

Note `np.abs(full_data).max(axis=0)` reduces only over the sample axis, so
`max_image[i, j, c]` is a per-position, per-channel maximum. -/

/-- A 3-D sample array indexed (row, column, channel). -/
def Tensor : Type := Nat → Nat → Nat → ℚ

/-- The all-zero sample, used as a list-lookup default. -/
def zeroTensor : Tensor := fun _ _ _ => 0

/-- `max_image[i, j, c]`: the maximum of `|s i j c|` over the given samples
(the sample axis), one value per spatial position and channel. -/
def maxImagePos (samples : List Tensor) (i j c : Nat) : ℚ :=
  (samples.map (fun s => |s i j c|)).foldr max 0

/-- Cross-sample pass: every entry of every train and test sample is divided
by the per-position maximum over the concatenated data plus epsilon. -/
def crossPass (train_data test_data : List Tensor) (epsilon : ℚ) :
    List Tensor × List Tensor :=
  let full_data := train_data ++ test_data
  (train_data.map (fun s => fun i j c => s i j c / (maxImagePos full_data i j c + epsilon)),
   test_data.map (fun s => fun i j c => s i j c / (maxImagePos full_data i j c + epsilon)))

/-- `np.abs(feature_map).max()` for one channel of one sample over the
crop window of `H` rows and `W` columns: a single scalar. -/
def channelMaxAbs (H W : Nat) (s : Tensor) (c : Nat) : ℚ :=
  ((List.range H).map
    (fun i => ((List.range W).map (fun j => |s i j c|)).foldr max 0)).foldr max 0

/-- Within-sample pass: each channel of the sample is divided by that
channel's own maximum absolute value plus epsilon. -/
def withinPass (H W : Nat) (epsilon : ℚ) (s : Tensor) : Tensor :=
  fun i j c => s i j c / (channelMaxAbs H W s c + epsilon)

/-- The two-pass normalizer: the cross-sample pass runs to completion on all
samples, then the within-sample pass runs on its output. -/
def normalize (H W : Nat) (train_data test_data : List Tensor) (epsilon : ℚ) :
    List Tensor × List Tensor :=
  let crossed := crossPass train_data test_data epsilon
  (crossed.1.map (withinPass H W epsilon), crossed.2.map (withinPass H W epsilon))

/-- Written from the spec's words, for refinement comparison with the code's
`crossPass`: "for each channel, compute the maximum absolute value across the
union of all train and test samples" — one scalar per channel. -/
def specChannelMax (H W : Nat) (samples : List Tensor) (c : Nat) : ℚ :=
  (samples.map (fun s => channelMaxAbs H W s c)).foldr max 0

/-- Written from the spec's words: divide every sample's channel by the
per-channel joint maximum plus epsilon. -/
def specCrossPass (H W : Nat) (train_data test_data : List Tensor) (epsilon : ℚ) :
    List Tensor × List Tensor :=
  let full_data := train_data ++ test_data
  (train_data.map (fun s => fun i j c => s i j c / (specChannelMax H W full_data c + epsilon)),
   test_data.map (fun s => fun i j c => s i j c / (specChannelMax H W full_data c + epsilon)))

/-! ## Imaging aggregation (notebook sections 1.3.1-1.3.2)

Embeds

  feature_map = np.nan_to_num(nib.load(...).get_data().T)
  masked_feature_map = np.multiply(feature_map, mask)
  ...
  train_data[sample_number, :, :, feature_number] = sample_dict[feature_name][0:34, 0:26]

A raw loaded cell is a rational value or one of the non-finite floats.  The
assignment of a cropped map into the fixed 34 x 26 slot fails (numpy
broadcast error) when the map is smaller than the crop shape, so cropping is
modelled as `Option`-returning. -/

/-- A raw cell of a loaded feature map: finite value, NaN, or an infinity. -/
inductive RawVal
  | val (q : ℚ)
  | nan
  | posinf
  | neginf
deriving DecidableEq

/-- The largest finite IEEE-754 double, 1.7976931348623157e308, exactly. -/
def maxFloat : ℚ := (2 ^ 53 - 1) * 2 ^ 971

/-- `np.nan_to_num` with default arguments: NaN becomes zero, positive and
negative infinity become the largest-magnitude finite doubles. -/
def nan_to_num : RawVal → ℚ
  | RawVal.val q => q
  | RawVal.nan => 0
  | RawVal.posinf => maxFloat
  | RawVal.neginf => -maxFloat

/-- `np.multiply(np.nan_to_num(feature_map), mask)`: elementwise product of
the NaN-cleaned feature map with the mask. -/
def maskFeature (mask : List (List ℚ)) (feature_map : List (List RawVal)) :
    List (List ℚ) :=
  List.zipWith (fun frow mrow => List.zipWith (fun v m => nan_to_num v * m) frow mrow)
    feature_map mask

/-- Crop a 2-D map to `h` rows by `w` columns, top-left aligned
(`arr[0:h, 0:w]` followed by assignment into an `h x w` slot): excess rows
and columns are discarded; a map smaller than the crop shape is an error. -/
def crop (h w : Nat) (m : List (List ℚ)) : Option (List (List ℚ)) :=
  if h ≤ m.length ∧ ∀ row ∈ m.take h, w ≤ row.length then
    some ((m.take h).map (fun row => row.take w))
  else none

/-- Stack one channel per feature name, in the given order; any failing
channel aborts the whole stack. -/
def stackChannels (f : String → Option (List (List ℚ))) :
    List String → Option (List (List (List ℚ)))
  | [] => some []
  | n :: rest =>
    match f n, stackChannels f rest with
    | some c, some cs => some (c :: cs)
    | _, _ => none

/-- `aggregate_tensor`: look up each feature map of the sample by name in
canonical order, clean non-finite values, multiply by the mask, crop, and
stack the channels into one 3-D array (channel-major here). -/
def aggregate_tensor (sample : List (String × List (List RawVal)))
    (mask : List (List ℚ)) (feature_names : List String) (h w : Nat) :
    Option (List (List (List ℚ))) :=
  stackChannels
    (fun name => (sample.lookup name).bind (fun fmap => crop h w (maskFeature mask fmap)))
    feature_names

/-! ## Tabular aggregation (replication notebook, cell 5)

Embeds

  mean_df.dropna(inplace=True); std_df.dropna(inplace=True)
  if len(mean_df) == 0 or len(std_df) == 0: continue
  feat = np.concatenate((mean_df.iloc[0,:][feature_names].values.flatten(),
                         std_df.iloc[0,:][feature_names].values.flatten()))
  patient_ids.append(patient_id); feature_vectors.append(feat)
  classes.append(patient_id_to_case[patient_id])
-/

/-- Select the named columns of a single row, in order; a missing column is
an error (pandas `KeyError`). -/
def selectRow (row : List (String × ℚ)) : List String → Option (List ℚ)
  | [] => some []
  | n :: rest =>
    match row.lookup n, selectRow row rest with
    | some v, some vs => some (v :: vs)
    | _, _ => none

/-- `aggregate_statistics`: the mean row's values in feature order followed by
the std row's values in feature order, concatenated. -/
def aggregate_statistics (mean_row std_row : List (String × ℚ))
    (feature_names : List String) : Option (List ℚ) :=
  match selectRow mean_row feature_names, selectRow std_row feature_names with
  | some mv, some sv => some (mv ++ sv)
  | _, _ => none

/-- `dropna`: keep only the rows in which every cell holds a value. -/
def dropna (t : List (List (String × Option ℚ))) : List (List (String × Option ℚ)) :=
  t.filter (fun row => row.all (fun cell => cell.2.isSome))

/-- Strip the `Option` layer from a row all of whose cells hold values. -/
def rowValues (row : List (String × Option ℚ)) : List (String × ℚ) :=
  row.filterMap (fun cell => cell.2.map (fun v => (cell.1, v)))

/-- One tabular sample directory: patient id plus the mean and std tables. -/
structure TabularSample where
  patient_id : Nat
  mean_table : List (List (String × Option ℚ))
  std_table : List (List (String × Option ℚ))

/-- The tabular aggregation loop: drop incomplete rows from both tables; if
either table becomes empty the sample is skipped entirely; otherwise the
first rows are selected into a vector and the vector, patient id and label
are appended in lockstep. -/
def processTabular (patient_id_to_case : Nat → Bool) (feature_names : List String) :
    List TabularSample → Option (List (List ℚ) × List Nat × List Bool)
  | [] => some ([], [], [])
  | s :: rest =>
    let mean_df := dropna s.mean_table
    let std_df := dropna s.std_table
    if mean_df.length = 0 ∨ std_df.length = 0 then
      processTabular patient_id_to_case feature_names rest
    else
      match mean_df.head?, std_df.head? with
      | some mrow, some srow =>
        match aggregate_statistics (rowValues mrow) (rowValues srow) feature_names,
              processTabular patient_id_to_case feature_names rest with
        | some feat, some out =>
          some (feat :: out.1, s.patient_id :: out.2.1,
                patient_id_to_case s.patient_id :: out.2.2)
        | _, _ => none
      | _, _ => none

/-! ## Feature-name discovery (replication notebook, cell 4)

Embeds

  feature_name = re.search('(?<=_norm_).+(?=\.nii\.gz)', filename.name).group()

When the regex finds no match, `re.search` returns `None` and `.group()`
raises — the run aborts; it never silently skips the filename.  The spec
calls this failure `NamingConventionError`. -/

/-- The error raised when a filename does not follow the naming convention;
it carries the offending filename. -/
def NamingConventionError : Type := String

/-- Does `pat` occur in `s` starting at index `i`? -/
def occursAt (pat s : List Char) (i : Nat) : Bool :=
  pat.isPrefixOf (s.drop i)

/-- Model of the regex `(?<=_norm_).+(?=\.nii\.gz)`: the match starts at the
first position preceded by `_norm_` that is followed, at least one character
later, by `.nii.gz`; the greedy `.+` extends to the last such `.nii.gz`. -/
def extractFeatureName (filename : String) : Option String :=
  let cs := filename.data
  let marker := "_norm_".data
  let ending := ".nii.gz".data
  let endingStarts := (List.range (cs.length + 1)).filter (fun q => occursAt ending cs q)
  let markerEnds := (List.range (cs.length + 1)).filter
    (fun p => decide (6 ≤ p) && occursAt marker cs (p - 6))
  match markerEnds.find? (fun p => endingStarts.any (fun q => decide (p + 1 ≤ q))) with
  | none => none
  | some p =>
    match (endingStarts.filter (fun q => decide (p + 1 ≤ q))).getLast? with
    | none => none
    | some q => some (String.mk ((cs.drop p).take (q - p)))

/-- The collection loop: extract a feature name from every filename; a
filename with no match aborts with a `NamingConventionError` naming it. -/
def collectFeatureNames : List String → Except NamingConventionError (List String)
  | [] => Except.ok []
  | f :: rest =>
    match extractFeatureName f with
    | none => Except.error f
    | some n =>
      match collectFeatureNames rest with
      | Except.error g => Except.error g
      | Except.ok ns => Except.ok (n :: ns)

/-- `discover_feature_names`: collect a name from every filename of the
scanned directory, then sort (`feature_names = sorted(feature_names)`). -/
def discover_feature_names (filenames : List String) :
    Except NamingConventionError (List String) :=
  match collectFeatureNames filenames with
  | Except.error g => Except.error g
  | Except.ok ns => Except.ok (ns.insertionSort (fun a b => a ≤ b))

/-! ### Helper lemmas about sampling -/

theorem perm_get_cons_eraseIdx (l : List String) (i : Nat) (h : i < l.length) :
    l.Perm (l.get ⟨i, h⟩ :: l.eraseIdx i) := by
  have hmem : l.get ⟨i, h⟩ ∈ l := List.get_mem l i h
  have h1 : l.Perm (l.get ⟨i, h⟩ :: l.erase (l.get ⟨i, h⟩)) :=
    List.perm_cons_erase hmem
  have h2 : (l.erase (l.get ⟨i, h⟩)).Perm (l.eraseIdx i) := by
    have h3 := List.erase_getElem h
    simpa [List.get_eq_getElem] using h3
  exact h1.trans (h2.cons _)

theorem sampleWithoutReplacement_succ (st k : Nat) (l : List String)
    (h : l.length ≠ 0) :
    sampleWithoutReplacement st (k + 1) l =
      l.get ⟨lcgNext st % l.length, Nat.mod_lt _ (Nat.pos_of_ne_zero h)⟩ ::
        sampleWithoutReplacement (lcgNext st) k (l.eraseIdx (lcgNext st % l.length)) := by
  rw [sampleWithoutReplacement]
  rw [dif_neg h]

theorem sampleWithoutReplacement_length (st k : Nat) (xs : List String) :
    (sampleWithoutReplacement st k xs).length = min k xs.length := by
  induction k generalizing st xs with
  | zero => simp [sampleWithoutReplacement]
  | succ k ih =>
    by_cases h : xs.length = 0
    · rw [sampleWithoutReplacement, dif_pos h, h]
      simp
    · have hi : lcgNext st % xs.length < xs.length :=
        Nat.mod_lt _ (Nat.pos_of_ne_zero h)
      have herase : (xs.eraseIdx (lcgNext st % xs.length)).length + 1 = xs.length :=
        List.length_eraseIdx_add_one hi
      rw [sampleWithoutReplacement_succ st k xs h]
      rw [List.length_cons, ih]
      omega

theorem sampleWithoutReplacement_subset (st k : Nat) (xs : List String) :
    ∀ a ∈ sampleWithoutReplacement st k xs, a ∈ xs := by
  induction k generalizing st xs with
  | zero => simp [sampleWithoutReplacement]
  | succ k ih =>
    by_cases h : xs.length = 0
    · rw [sampleWithoutReplacement, dif_pos h]
      simp
    · intro a ha
      have hi : lcgNext st % xs.length < xs.length :=
        Nat.mod_lt _ (Nat.pos_of_ne_zero h)
      rw [sampleWithoutReplacement_succ st k xs h] at ha
      rcases List.mem_cons.mp ha with h1 | h1
      · rw [h1]
        exact List.get_mem _ _ _
      · have hmem := ih (lcgNext st) _ a h1
        exact (perm_get_cons_eraseIdx xs _ hi).symm.subset
          (List.mem_cons_of_mem _ hmem)

theorem sampleWithoutReplacement_nodup (st k : Nat) (xs : List String)
    (hx : xs.Nodup) : (sampleWithoutReplacement st k xs).Nodup := by
  induction k generalizing st xs with
  | zero => simp [sampleWithoutReplacement]
  | succ k ih =>
    by_cases h : xs.length = 0
    · rw [sampleWithoutReplacement, dif_pos h]
      simp
    · have hi : lcgNext st % xs.length < xs.length :=
        Nat.mod_lt _ (Nat.pos_of_ne_zero h)
      have hperm := perm_get_cons_eraseIdx xs _ hi
      have hcons : (xs.get ⟨lcgNext st % xs.length, hi⟩ ::
          xs.eraseIdx (lcgNext st % xs.length)).Nodup :=
        hperm.nodup_iff.mp hx
      have hhead := (List.nodup_cons.mp hcons).1
      have htail := (List.nodup_cons.mp hcons).2
      rw [sampleWithoutReplacement_succ st k xs h]
      refine List.nodup_cons.mpr ⟨?_, ih (lcgNext st) _ htail⟩
      intro hmem
      exact hhead (sampleWithoutReplacement_subset _ _ _ _ hmem)

theorem length_filter_bool_split (q : String → Bool) (l : List String) :
    (l.filter q).length + (l.filter (fun a => !(q a))).length = l.length := by
  induction l with
  | nil => simp
  | cons a t iht =>
    cases hq : q a <;> simp [List.filter_cons, hq] <;> omega

theorem length_filter_not_mem (pop train : List String)
    (hpop : pop.Nodup) (htrain : train.Nodup) (hsub : ∀ a ∈ train, a ∈ pop) :
    (pop.filter (fun p => decide (p ∉ train))).length = pop.length - train.length := by
  have hpred : (fun p => decide (p ∉ train)) = (fun p => !(decide (p ∈ train))) := by
    funext p
    simp [decide_not]
  have hsplit := length_filter_bool_split (fun p => decide (p ∈ train)) pop
  have hmemperm : (pop.filter (fun p => decide (p ∈ train))).Perm train := by
    refine (List.perm_ext_iff_of_nodup (List.Nodup.filter _ hpop) htrain).mpr ?_
    intro a
    simp only [List.mem_filter, decide_eq_true_eq]
    constructor
    · rintro ⟨_, h⟩; exact h
    · intro h; exact ⟨hsub a h, h⟩
  have hlen := hmemperm.length_eq
  rw [hpred]
  omega

/-! ### Helper lemmas about folds, maxima and indexed access -/

theorem le_foldr_max (l : List ℚ) (b x : ℚ) (hx : x ∈ l) : x ≤ l.foldr max b := by
  induction l with
  | nil => simp at hx
  | cons a t iht =>
    rcases List.mem_cons.mp hx with h | h
    · rw [h]
      exact le_max_left _ _
    · exact le_trans (iht h) (le_max_right _ _)

theorem base_le_foldr_max (l : List ℚ) (b : ℚ) : b ≤ l.foldr max b := by
  induction l with
  | nil => exact le_refl b
  | cons a t iht => exact le_trans iht (le_max_right _ _)

theorem foldr_max_mem (l : List ℚ) (hne : l ≠ []) (h0 : ∀ x ∈ l, 0 ≤ x) :
    l.foldr max 0 ∈ l := by
  induction l with
  | nil => exact absurd rfl hne
  | cons a t iht =>
    cases t with
    | nil =>
      simp only [List.foldr_cons, List.foldr_nil]
      have ha : 0 ≤ a := h0 a (List.mem_cons_self _ _)
      rw [max_eq_left ha]
      exact List.mem_cons_self _ _
    | cons b' t' =>
      have hne' : b' :: t' ≠ [] := by simp
      have h0' : ∀ x ∈ b' :: t', 0 ≤ x := fun x hx => h0 x (List.mem_cons_of_mem _ hx)
      rcases le_total ((b' :: t').foldr max 0) a with hle | hle
      · simp only [List.foldr_cons] at *
        rw [max_eq_left hle]
        exact List.mem_cons_self _ _
      · simp only [List.foldr_cons] at *
        rw [max_eq_right hle]
        exact List.mem_cons_of_mem _ (iht hne' h0')

theorem getD_map_fun {α β : Type} (f : α → β) (l : List α) (k : Nat)
    (hk : k < l.length) (d : β) (d' : α) :
    (l.map f).getD k d = f (l.getD k d') := by
  induction l generalizing k with
  | nil => simp at hk
  | cons a t iht =>
    cases k with
    | zero => rfl
    | succ k =>
      have hk' : k < t.length := by simpa using hk
      simpa using iht k hk'

theorem abs_le_channelMaxAbs (H W : Nat) (s : Tensor) (c i j : Nat)
    (hi : i < H) (hj : j < W) : |s i j c| ≤ channelMaxAbs H W s c := by
  have hinner : |s i j c| ≤ ((List.range W).map (fun j => |s i j c|)).foldr max 0 :=
    le_foldr_max _ _ _ (List.mem_map_of_mem _ (List.mem_range.mpr hj))
  have houter : ((List.range W).map (fun j => |s i j c|)).foldr max 0 ≤
      channelMaxAbs H W s c :=
    le_foldr_max _ _ _ (List.mem_map_of_mem _ (List.mem_range.mpr hi))
  exact le_trans hinner houter

theorem channelMaxAbs_nonneg (H W : Nat) (s : Tensor) (c : Nat) :
    0 ≤ channelMaxAbs H W s c :=
  base_le_foldr_max _ _

theorem abs_le_maxImagePos (samples : List Tensor) (s : Tensor) (hs : s ∈ samples)
    (i j c : Nat) : |s i j c| ≤ maxImagePos samples i j c :=
  le_foldr_max _ _ _ (List.mem_map_of_mem _ hs)

theorem maxImagePos_attained (samples : List Tensor) (hne : samples ≠ [])
    (i j c : Nat) : ∃ s ∈ samples, maxImagePos samples i j c = |s i j c| := by
  have hmapne : samples.map (fun s => |s i j c|) ≠ [] := by
    simpa using hne
  have h0 : ∀ x ∈ samples.map (fun s => |s i j c|), 0 ≤ x := by
    intro x hx
    rcases List.mem_map.mp hx with ⟨s, _, hs⟩
    rw [← hs]
    exact abs_nonneg _
  have hmem := foldr_max_mem _ hmapne h0
  rcases List.mem_map.mp hmem with ⟨s, hs, hval⟩
  exact ⟨s, hs, hval.symm⟩

theorem abs_withinPass_le_one (H W : Nat) (epsilon : ℚ) (heps : 0 < epsilon)
    (t : Tensor) (c i j : Nat) (hi : i < H) (hj : j < W) :
    |withinPass H W epsilon t i j c| ≤ 1 := by
  have hm0 : 0 ≤ channelMaxAbs H W t c := channelMaxAbs_nonneg H W t c
  have habs : |t i j c| ≤ channelMaxAbs H W t c := abs_le_channelMaxAbs H W t c i j hi hj
  have hpos : 0 < channelMaxAbs H W t c + epsilon := by linarith
  have hrw : |withinPass H W epsilon t i j c| =
      |t i j c| / (channelMaxAbs H W t c + epsilon) := by
    show |t i j c / (channelMaxAbs H W t c + epsilon)| = _
    rw [abs_div, abs_of_pos hpos]
  rw [hrw]
  rw [div_le_one hpos]
  linarith

/-! ### Helper lemmas about partition assignment -/

theorem assignPartition_ok_iff (testing training : List String) (pid : String) (b : Bool) :
    assignPartition testing training pid = Except.ok b ↔
      ((b = true ∧ pid ∈ testing ∧ pid ∉ training) ∨
       (b = false ∧ pid ∉ testing ∧ pid ∈ training)) := by
  by_cases h1 : pid ∈ testing <;> by_cases h2 : pid ∈ training <;>
    cases b <;> simp [assignPartition, h1, h2]

theorem processSamples_mem {φ : Type} (label : String → Bool)
    (testing training : List String) (samples : List (String × φ))
    (train_out test_out : List (φ × Bool))
    (h : processSamples label testing training samples = Except.ok (train_out, test_out)) :
    ∀ pid feats, (pid, feats) ∈ samples →
      (pid ∈ testing ∧ pid ∉ training ∧ (feats, label pid) ∈ test_out) ∨
      (pid ∉ testing ∧ pid ∈ training ∧ (feats, label pid) ∈ train_out) := by
  induction samples generalizing train_out test_out with
  | nil =>
    intro pid feats hmem
    simp at hmem
  | cons hd rest ih =>
    obtain ⟨q, g⟩ := hd
    intro pid feats hmem
    simp only [processSamples] at h
    cases hassign : assignPartition testing training q with
    | error e =>
      rw [hassign] at h
      simp at h
    | ok isTest =>
      rw [hassign] at h
      cases hrest : processSamples label testing training rest with
      | error e =>
        rw [hrest] at h
        cases isTest <;> simp at h
      | ok pr =>
        obtain ⟨tr', te'⟩ := pr
        rw [hrest] at h
        have hassign' := (assignPartition_ok_iff testing training q isTest).mp hassign
        cases isTest with
        | true =>
          obtain ⟨htr, hte⟩ : tr' = train_out ∧ (g, label q) :: te' = test_out := by
            simpa using h
          rcases List.mem_cons.mp hmem with heq | hmem'
          · obtain ⟨hpid, hfeats⟩ : pid = q ∧ feats = g := by simpa using heq
            rcases hassign' with ⟨_, hin, hnotin⟩ | ⟨hfalse, _, _⟩
            · left
              refine ⟨hpid ▸ hin, hpid ▸ hnotin, ?_⟩
              rw [← hte, hpid, hfeats]
              exact List.mem_cons_self _ _
            · exact absurd hfalse (by simp)
          · rcases ih tr' te' hrest pid feats hmem' with ⟨ha, hb, hc⟩ | ⟨ha, hb, hc⟩
            · left
              exact ⟨ha, hb, by rw [← hte]; exact List.mem_cons_of_mem _ hc⟩
            · right
              exact ⟨ha, hb, htr ▸ hc⟩
        | false =>
          obtain ⟨htr, hte⟩ : (g, label q) :: tr' = train_out ∧ te' = test_out := by
            simpa using h
          rcases List.mem_cons.mp hmem with heq | hmem'
          · obtain ⟨hpid, hfeats⟩ : pid = q ∧ feats = g := by simpa using heq
            rcases hassign' with ⟨hfalse, _, _⟩ | ⟨_, hnotin, hin⟩
            · exact absurd hfalse (by simp)
            · right
              refine ⟨hpid ▸ hnotin, hpid ▸ hin, ?_⟩
              rw [← htr, hpid, hfeats]
              exact List.mem_cons_self _ _
          · rcases ih tr' te' hrest pid feats hmem' with ⟨ha, hb, hc⟩ | ⟨ha, hb, hc⟩
            · left
              exact ⟨ha, hb, hte ▸ hc⟩
            · right
              exact ⟨ha, hb, by rw [← htr]; exact List.mem_cons_of_mem _ hc⟩

/-! ### Helper lemmas about channel stacking and row selection -/

theorem stackChannels_ok (f : String → Option (List (List ℚ))) (names : List String)
    (out : List (List (List ℚ))) (h : stackChannels f names = some out) :
    out.length = names.length ∧
    ∀ k, k < names.length →
      ∃ ch, f (names.getD k "") = some ch ∧ out.getD k [] = ch := by
  induction names generalizing out with
  | nil =>
    obtain rfl : ([] : List (List (List ℚ))) = out := by simpa [stackChannels] using h
    exact ⟨rfl, fun k hk => absurd hk (by simp)⟩
  | cons n rest ih =>
    simp only [stackChannels] at h
    cases hfn : f n with
    | none => rw [hfn] at h; simp at h
    | some c =>
      rw [hfn] at h
      cases hrest : stackChannels f rest with
      | none => rw [hrest] at h; simp at h
      | some cs =>
        rw [hrest] at h
        obtain rfl : c :: cs = out := by simpa using h
        obtain ⟨hlen, hidx⟩ := ih cs hrest
        refine ⟨by simpa using hlen, ?_⟩
        intro k hk
        cases k with
        | zero => exact ⟨c, hfn, rfl⟩
        | succ k =>
          have hk' : k < rest.length := by simpa using hk
          exact hidx k hk'

theorem stackChannels_none (f : String → Option (List (List ℚ))) (names : List String)
    (n : String) (hn : n ∈ names) (hf : f n = none) :
    stackChannels f names = none := by
  induction names with
  | nil => simp at hn
  | cons m rest ih =>
    rcases List.mem_cons.mp hn with heq | hmem
    · rw [heq] at hf
      simp [stackChannels, hf]
    · simp only [stackChannels, ih hmem]
      cases f m <;> rfl

theorem selectRow_ok (row : List (String × ℚ)) (names : List String) (vs : List ℚ)
    (h : selectRow row names = some vs) :
    vs.length = names.length ∧
    ∀ k, k < names.length → row.lookup (names.getD k "") = some (vs.getD k 0) := by
  induction names generalizing vs with
  | nil =>
    obtain rfl : ([] : List ℚ) = vs := by simpa [selectRow] using h
    exact ⟨rfl, fun k hk => absurd hk (by simp)⟩
  | cons n rest ih =>
    simp only [selectRow] at h
    cases hfn : row.lookup n with
    | none => rw [hfn] at h; simp at h
    | some v =>
      rw [hfn] at h
      cases hrest : selectRow row rest with
      | none => rw [hrest] at h; simp at h
      | some ws =>
        rw [hrest] at h
        obtain rfl : v :: ws = vs := by simpa using h
        obtain ⟨hlen, hidx⟩ := ih ws hrest
        refine ⟨by simpa using hlen, ?_⟩
        intro k hk
        cases k with
        | zero => simpa using hfn
        | succ k =>
          have hk' : k < rest.length := by simpa using hk
          exact hidx k hk'

theorem processTabular_lengths (patient_id_to_case : Nat → Bool)
    (feature_names : List String) (l : List TabularSample)
    (out : List (List ℚ) × List Nat × List Bool)
    (h : processTabular patient_id_to_case feature_names l = some out) :
    out.1.length = out.2.1.length ∧ out.2.1.length = out.2.2.length := by
  induction l generalizing out with
  | nil =>
    obtain rfl : (([], [], []) : List (List ℚ) × List Nat × List Bool) = out := by
      simpa [processTabular] using h
    exact ⟨rfl, rfl⟩
  | cons s rest ih =>
    simp only [processTabular] at h
    by_cases hc : (dropna s.mean_table).length = 0 ∨ (dropna s.std_table).length = 0
    · rw [if_pos hc] at h
      exact ih out h
    · rw [if_neg hc] at h
      cases hm : (dropna s.mean_table).head? with
      | none => simp [hm] at h
      | some mrow =>
        cases hs : (dropna s.std_table).head? with
        | none => simp [hm, hs] at h
        | some srow =>
          cases hagg : aggregate_statistics (rowValues mrow) (rowValues srow) feature_names with
          | none => simp [hm, hs, hagg] at h
          | some feat =>
            cases hrest : processTabular patient_id_to_case feature_names rest with
            | none => simp [hm, hs, hagg, hrest] at h
            | some out' =>
              obtain rfl : (feat :: out'.1, s.patient_id :: out'.2.1,
                  patient_id_to_case s.patient_id :: out'.2.2) = out := by
                simpa [hm, hs, hagg, hrest] using h
              obtain ⟨h1, h2⟩ := ih out' hrest
              exact ⟨by simpa using h1, by simpa using h2⟩

/-! ### Helper lemmas about feature-name collection -/

theorem collectFeatureNames_error (l : List String) (f : String) (hf : f ∈ l)
    (hx : extractFeatureName f = none) :
    ∃ g ∈ l, extractFeatureName g = none ∧
      collectFeatureNames l = Except.error g := by
  induction l with
  | nil => simp at hf
  | cons a rest ih =>
    cases hxa : extractFeatureName a with
    | none =>
      exact ⟨a, List.mem_cons_self _ _, hxa, by simp [collectFeatureNames, hxa]⟩
    | some n =>
      have hf' : f ∈ rest := by
        rcases List.mem_cons.mp hf with heq | hmem
        · rw [heq] at hx
          rw [hx] at hxa
          exact absurd hxa (by simp)
        · exact hmem
      obtain ⟨g, hg, hgnone, hcol⟩ := ih hf'
      refine ⟨g, List.mem_cons_of_mem _ hg, hgnone, ?_⟩
      simp [collectFeatureNames, hxa, hcol]

theorem collectFeatureNames_ok (l : List String) (ns : List String)
    (h : collectFeatureNames l = Except.ok ns) :
    ns.length = l.length ∧
    ∀ f ∈ l, ∃ n, extractFeatureName f = some n ∧ n ∈ ns := by
  induction l generalizing ns with
  | nil =>
    obtain rfl : ([] : List String) = ns := by simpa [collectFeatureNames] using h
    exact ⟨rfl, fun f hf => absurd hf (by simp)⟩
  | cons a rest ih =>
    simp only [collectFeatureNames] at h
    cases hxa : extractFeatureName a with
    | none => rw [hxa] at h; simp at h
    | some n =>
      rw [hxa] at h
      cases hrest : collectFeatureNames rest with
      | error g => rw [hrest] at h; simp at h
      | ok ms =>
        rw [hrest] at h
        obtain rfl : n :: ms = ns := by simpa using h
        obtain ⟨hlen, hmem⟩ := ih ms hrest
        refine ⟨by simpa using hlen, ?_⟩
        intro f hf
        rcases List.mem_cons.mp hf with heq | hf'
        · exact ⟨n, heq ▸ hxa, List.mem_cons_self _ _⟩
        · obtain ⟨m, hm1, hm2⟩ := hmem f hf'
          exact ⟨m, hm1, List.mem_cons_of_mem _ hm2⟩

/-! ## Claim theorems -/

/-- C2: `split_patients` on a duplicate-free population of size N with train
fraction f (0 ≤ f ≤ 1) returns a train set of exactly round(f·N) patient ids
drawn without replacement (hence duplicate-free and inside the population),
and a test set consisting of exactly the remaining patients, so the two sets
are disjoint and their union is the full population. -/
theorem C2_split_sizes_disjoint_cover (patient_ids : List String) (f : ℚ) (seed : Nat)
    (hnodup : patient_ids.Nodup) (hf0 : 0 ≤ f) (hf1 : f ≤ 1) :
    (((split_patients patient_ids f seed).1.length : ℤ) =
        round (f * patient_ids.length)) ∧
    (((split_patients patient_ids f seed).2.length : ℤ) =
        (patient_ids.length : ℤ) - round (f * patient_ids.length)) ∧
    (∀ p ∈ (split_patients patient_ids f seed).1,
        p ∈ patient_ids ∧ p ∉ (split_patients patient_ids f seed).2) ∧
    (∀ p, p ∈ (split_patients patient_ids f seed).2 ↔
        p ∈ patient_ids ∧ p ∉ (split_patients patient_ids f seed).1) ∧
    (split_patients patient_ids f seed).1.Nodup := by
  have hN0 : (0 : ℚ) ≤ (patient_ids.length : ℚ) := by positivity
  have hround0 : 0 ≤ round (f * (patient_ids.length : ℚ)) := by
    rw [round_eq]
    refine Int.le_floor.mpr ?_
    have hmn : 0 ≤ f * (patient_ids.length : ℚ) := mul_nonneg hf0 hN0
    push_cast
    linarith
  have hfloorN : ⌊(patient_ids.length : ℚ) + 1 / 2⌋ = (patient_ids.length : ℤ) := by
    rw [Int.floor_eq_iff]
    constructor
    · push_cast
      linarith
    · push_cast
      linarith
  have hkle : round (f * (patient_ids.length : ℚ)) ≤ (patient_ids.length : ℤ) := by
    rw [round_eq]
    have hmul : f * (patient_ids.length : ℚ) ≤ (patient_ids.length : ℚ) :=
      mul_le_of_le_one_left hN0 hf1
    have hmono := Int.floor_mono
      (show f * (patient_ids.length : ℚ) + 1 / 2 ≤ (patient_ids.length : ℚ) + 1 / 2 by
        linarith)
    rw [hfloorN] at hmono
    exact hmono
  have hkN : (round (f * (patient_ids.length : ℚ))).toNat ≤ patient_ids.length :=
    Int.toNat_le.mpr hkle
  have htrain : (split_patients patient_ids f seed).1 =
      sampleWithoutReplacement (seedState seed)
        (round (f * (patient_ids.length : ℚ))).toNat patient_ids := rfl
  have htest : (split_patients patient_ids f seed).2 =
      patient_ids.filter (fun p => decide (p ∉ (split_patients patient_ids f seed).1)) := rfl
  have hlen : (split_patients patient_ids f seed).1.length =
      (round (f * (patient_ids.length : ℚ))).toNat := by
    rw [htrain, sampleWithoutReplacement_length]
    exact Nat.min_eq_left hkN
  have hsub : ∀ p ∈ (split_patients patient_ids f seed).1, p ∈ patient_ids := by
    rw [htrain]
    exact sampleWithoutReplacement_subset _ _ _
  have htrnodup : (split_patients patient_ids f seed).1.Nodup := by
    rw [htrain]
    exact sampleWithoutReplacement_nodup _ _ _ hnodup
  have hmem_test : ∀ p, p ∈ (split_patients patient_ids f seed).2 ↔
      p ∈ patient_ids ∧ p ∉ (split_patients patient_ids f seed).1 := by
    intro p
    rw [htest, List.mem_filter]
    simp only [decide_eq_true_eq]
  have htoNat : ((round (f * (patient_ids.length : ℚ))).toNat : ℤ) =
      round (f * (patient_ids.length : ℚ)) := Int.toNat_of_nonneg hround0
  refine ⟨?_, ?_, ?_, hmem_test, htrnodup⟩
  · rw [hlen]
    exact htoNat
  · have hflen : (split_patients patient_ids f seed).2.length =
        patient_ids.length - (split_patients patient_ids f seed).1.length := by
      rw [htest]
      exact length_filter_not_mem patient_ids _ hnodup htrnodup hsub
    rw [hflen, hlen]
    omega
  · intro p hp
    refine ⟨hsub p hp, ?_⟩
    intro hpt
    exact ((hmem_test p).mp hpt).2 hp

/-- C3: determinism of the splitter: two notebook runs of the splitting cell,
started from arbitrary (possibly different) ambient generator states but with
the same population, train fraction and seed, produce identical train/test
assignments, because `np.random.seed(seed)` replaces the generator state
before the draw. -/
theorem C3_split_deterministic (g1 g2 : Nat) (patient_ids : List String) (f : ℚ)
    (seed : Nat) :
    notebookRunSplit g1 patient_ids f seed = notebookRunSplit g2 patient_ids f seed := rfl

/-- C1: patient-level partition invariant.  With `(training, testing)` coming
from the splitter, (1) no patient is in both partitions; (2) when the
aggregation loop succeeds, every patient contributing a sample lies in
exactly one of the two partitions; (3) two samples of the same patient are
appended, each tagged with that patient's label, to the same partition. -/
theorem C1_patient_partition_invariant {φ : Type} (patient_ids : List String) (f : ℚ)
    (seed : Nat) (label : String → Bool) (samples : List (String × φ))
    (training testing : List String)
    (hsplit : split_patients patient_ids f seed = (training, testing))
    (train_out test_out : List (φ × Bool))
    (hrun : processSamples label testing training samples = Except.ok (train_out, test_out)) :
    (∀ p, ¬(p ∈ training ∧ p ∈ testing)) ∧
    (∀ pid feats, (pid, feats) ∈ samples →
      ((pid ∈ training ∧ pid ∉ testing) ∨ (pid ∈ testing ∧ pid ∉ training))) ∧
    (∀ pid f1 f2, (pid, f1) ∈ samples → (pid, f2) ∈ samples →
      (((f1, label pid) ∈ train_out ∧ (f2, label pid) ∈ train_out) ∨
       ((f1, label pid) ∈ test_out ∧ (f2, label pid) ∈ test_out))) := by
  have h1 : (split_patients patient_ids f seed).1 = training := by rw [hsplit]
  have h2 : (split_patients patient_ids f seed).2 = testing := by rw [hsplit]
  have htesteq : testing =
      patient_ids.filter (fun p => decide (p ∉ training)) := by
    rw [← h2, ← h1]
    rfl
  have hpm := processSamples_mem label testing training samples train_out test_out hrun
  refine ⟨?_, ?_, ?_⟩
  · rintro p ⟨htr, hte⟩
    rw [htesteq] at hte
    have := (List.mem_filter.mp hte).2
    simp only [decide_eq_true_eq] at this
    exact this htr
  · intro pid feats hmem
    rcases hpm pid feats hmem with ⟨ha, hb, _⟩ | ⟨ha, hb, _⟩
    · right
      exact ⟨ha, hb⟩
    · left
      exact ⟨hb, ha⟩
  · intro pid f1 f2 hm1 hm2
    rcases hpm pid f1 hm1 with ⟨ha1, hb1, hc1⟩ | ⟨ha1, hb1, hc1⟩ <;>
      rcases hpm pid f2 hm2 with ⟨ha2, hb2, hc2⟩ | ⟨ha2, hb2, hc2⟩
    · right
      exact ⟨hc1, hc2⟩
    · exact absurd ha1 ha2
    · exact absurd ha2 ha1
    · left
      exact ⟨hc1, hc2⟩

/-- C10: a sample whose patient id is in neither patient list makes the
aggregation loop abort with the `Patient ID not found!` error; a patient id
in both lists trips the assertion; and on a successful run every sample is
appended to exactly one of the train and test feature lists. -/
theorem C10_unassigned_patient_aborts {φ : Type} (label : String → Bool)
    (testing training : List String) (pid : String) (samples : List (String × φ))
    (train_out test_out : List (φ × Bool)) :
    (pid ∉ testing → pid ∉ training →
      assignPartition testing training pid = Except.error AssignError.patientNotFound) ∧
    (pid ∈ testing → pid ∈ training →
      assignPartition testing training pid = Except.error AssignError.assertionFailed) ∧
    (processSamples label testing training samples = Except.ok (train_out, test_out) →
      ∀ q feats, (q, feats) ∈ samples →
        ((q ∈ testing ∧ q ∉ training ∧ (feats, label q) ∈ test_out) ∨
         (q ∈ training ∧ q ∉ testing ∧ (feats, label q) ∈ train_out))) := by
  refine ⟨?_, ?_, ?_⟩
  · intro h1 h2
    simp [assignPartition, h1, h2]
  · intro h1 h2
    simp [assignPartition, h1, h2]
  · intro hrun q feats hmem
    rcases processSamples_mem label testing training samples train_out test_out hrun
        q feats hmem with ⟨ha, hb, hc⟩ | ⟨ha, hb, hc⟩
    · left
      exact ⟨ha, hb, hc⟩
    · right
      exact ⟨hb, ha, hc⟩

/-- Witness for C2 at a concrete population of five patients with train
fraction 4/5 and seed 0: the hypotheses hold and the train/test sets are
disjoint with the train set inside the population. -/
theorem C2_sizes_witness :
    ((["p1", "p2", "p3", "p4", "p5"] : List String).Nodup ∧
      (0 : ℚ) ≤ 4 / 5 ∧ (4 : ℚ) / 5 ≤ 1) ∧
    (∀ p ∈ (split_patients ["p1", "p2", "p3", "p4", "p5"] (4 / 5) 0).1,
      p ∈ ["p1", "p2", "p3", "p4", "p5"] ∧
        p ∉ (split_patients ["p1", "p2", "p3", "p4", "p5"] (4 / 5) 0).2) := by
  refine ⟨⟨by decide, by norm_num, by norm_num⟩, ?_⟩
  exact (C2_split_sizes_disjoint_cover ["p1", "p2", "p3", "p4", "p5"] (4 / 5) 0
    (by decide) (by norm_num) (by norm_num)).2.2.1

/-- Witness for C1: population {A, B}, fraction 1/2, seed 0 yields the split
(["A"], ["B"]); patient A contributes two samples, both of which land in the
training list tagged with A's label. -/
theorem C1_witness :
    (split_patients ["A", "B"] (1 / 2) 0 = (["A"], ["B"]) ∧
      processSamples (fun _ => true) ["B"] ["A"] [("A", (0 : Nat)), ("A", 1)] =
        Except.ok ([((0 : Nat), true), ((1 : Nat), true)], [])) ∧
    ((((0 : Nat), true) ∈ [((0 : Nat), true), ((1 : Nat), true)] ∧
        ((1 : Nat), true) ∈ [((0 : Nat), true), ((1 : Nat), true)]) ∨
      (((0 : Nat), true) ∈ ([] : List (Nat × Bool)) ∧
        ((1 : Nat), true) ∈ ([] : List (Nat × Bool)))) := by
  have hk : (round ((1 / 2 : ℚ) * ((["A", "B"] : List String).length : ℚ))).toNat = 1 := by
    norm_num
  have hsplit : split_patients ["A", "B"] (1 / 2) 0 = (["A"], ["B"]) := by
    show choiceSplit 0 ["A", "B"]
        (round ((1 / 2 : ℚ) * ((["A", "B"] : List String).length : ℚ))).toNat = (["A"], ["B"])
    rw [hk]
    decide
  refine ⟨⟨hsplit, by rfl⟩, ?_⟩
  exact (C1_patient_partition_invariant ["A", "B"] (1 / 2) 0 (fun _ => true)
    [("A", (0 : Nat)), ("A", 1)] ["A"] ["B"] hsplit
    [((0 : Nat), true), ((1 : Nat), true)] [] (by rfl)).2.2 "A" 0 1
    (by decide) (by decide)

/-- Witness for C10: a patient id in neither list yields the
`Patient ID not found!` error, one in both lists trips the assertion, and a
successful concrete run appends the sample to exactly one partition. -/
theorem C10_witness :
    (("X" : String) ∉ (["T"] : List String) ∧ ("X" : String) ∉ (["R"] : List String) ∧
      assignPartition ["T"] ["R"] "X" = Except.error AssignError.patientNotFound) ∧
    (("B" : String) ∈ (["T", "B"] : List String) ∧ ("B" : String) ∈ (["B"] : List String) ∧
      assignPartition ["T", "B"] ["B"] "B" = Except.error AssignError.assertionFailed) ∧
    (processSamples (fun _ => true) ["T"] ["R"] [("T", (5 : Nat))] =
        Except.ok ([], [((5 : Nat), true)]) ∧
      (("T" ∈ (["T"] : List String) ∧ "T" ∉ (["R"] : List String) ∧
          ((5 : Nat), true) ∈ [((5 : Nat), true)]) ∨
        ("T" ∈ (["R"] : List String) ∧ "T" ∉ (["T"] : List String) ∧
          ((5 : Nat), true) ∈ ([] : List (Nat × Bool))))) := by
  refine ⟨⟨by decide, by decide, ?_⟩, ⟨by decide, by decide, ?_⟩, by rfl, ?_⟩
  · exact (@C10_unassigned_patient_aborts Nat (fun _ => true) ["T"] ["R"] "X" [] [] []).1
      (by decide) (by decide)
  · exact (@C10_unassigned_patient_aborts Nat (fun _ => true) ["T", "B"] ["B"] "B" [] [] []).2.1
      (by decide) (by decide)
  · exact (@C10_unassigned_patient_aborts Nat (fun _ => true) ["T"] ["R"] "T"
      [("T", (5 : Nat))] [] [((5 : Nat), true)]).2.2 (by rfl) "T" 5 (by decide)

/-- C4 counterexample: the claim says each channel is divided by the single
per-channel maximum over all samples, but `np.abs(full_data).max(axis=0)`
reduces only over the sample axis, giving a per-position maximum.  With train
sample (4, 1) and test sample (-10, 2) on one channel of two columns, the
entry at column 1 is divided by 2 + eps, not by the channel maximum 10 + eps. -/
theorem C4_counterexample :
    ((crossPass [fun _ j _ => if j = 0 then (4 : ℚ) else 1]
        [fun _ j _ => if j = 0 then (-10 : ℚ) else 2]
        (1 / 100000000)).1.getD 0 zeroTensor) 0 1 0 ≠
      1 / (specChannelMax 1 2
          ((fun _ j _ => if j = 0 then (4 : ℚ) else 1) ::
            (fun _ j _ => if j = 0 then (-10 : ℚ) else 2) :: []) 0 + 1 / 100000000) := by
  norm_num [crossPass, maxImagePos, specChannelMax, channelMaxAbs, zeroTensor, max_def,
    List.getD, List.range_succ]

/-- C4 (amended): the cross-sample pass divides every entry of every train and
test sample at position (i, j) of channel c by the maximum absolute value over
the union of all train and test samples at that same position and channel,
plus epsilon; that divisor dominates every sample's value there and is
attained by one of the samples.  When every channel holds a single value per
sample (the spec's 4 / -10 scenario) this coincides with the per-channel
maximum. -/
theorem C4_cross_sample_positional (train_data test_data : List Tensor) (epsilon : ℚ)
    (i j c : Nat) :
    (∀ k, k < train_data.length →
      ((crossPass train_data test_data epsilon).1.getD k zeroTensor) i j c =
        (train_data.getD k zeroTensor) i j c /
          (maxImagePos (train_data ++ test_data) i j c + epsilon)) ∧
    (∀ k, k < test_data.length →
      ((crossPass train_data test_data epsilon).2.getD k zeroTensor) i j c =
        (test_data.getD k zeroTensor) i j c /
          (maxImagePos (train_data ++ test_data) i j c + epsilon)) ∧
    (∀ s ∈ train_data ++ test_data,
      |s i j c| ≤ maxImagePos (train_data ++ test_data) i j c) ∧
    (train_data ++ test_data ≠ [] →
      ∃ s ∈ train_data ++ test_data,
        maxImagePos (train_data ++ test_data) i j c = |s i j c|) := by
  refine ⟨?_, ?_, ?_, ?_⟩
  · intro k hk
    show ((train_data.map (fun s =>
        (fun i j c => s i j c / (maxImagePos (train_data ++ test_data) i j c + epsilon) :
          Tensor))).getD k zeroTensor) i j c = _
    rw [getD_map_fun _ train_data k hk zeroTensor zeroTensor]
  · intro k hk
    show ((test_data.map (fun s =>
        (fun i j c => s i j c / (maxImagePos (train_data ++ test_data) i j c + epsilon) :
          Tensor))).getD k zeroTensor) i j c = _
    rw [getD_map_fun _ test_data k hk zeroTensor zeroTensor]
  · intro s hs
    exact abs_le_maxImagePos _ _ hs i j c
  · intro hne
    exact maxImagePos_attained _ hne i j c

/-- Witness for the amended C4 at the spec's scenario: two single-value
samples with channel-0 values 4 and -10 and epsilon 1e-8 are both divided by
10 + 1e-8. -/
theorem C4_witness :
    (0 < ([fun _ _ _ => (4 : ℚ)] : List Tensor).length) ∧
    ((crossPass [fun _ _ _ => (4 : ℚ)] [fun _ _ _ => (-10 : ℚ)]
        (1 / 100000000)).1.getD 0 zeroTensor) 0 0 0 = 4 / (10 + 1 / 100000000) ∧
    ((crossPass [fun _ _ _ => (4 : ℚ)] [fun _ _ _ => (-10 : ℚ)]
        (1 / 100000000)).2.getD 0 zeroTensor) 0 0 0 = -10 / (10 + 1 / 100000000) := by
  refine ⟨by decide, ?_, ?_⟩
  · have h := (C4_cross_sample_positional [fun _ _ _ => (4 : ℚ)]
      [fun _ _ _ => (-10 : ℚ)] (1 / 100000000) 0 0 0).1 0 (by decide)
    rw [h]
    norm_num [maxImagePos, zeroTensor, max_def, List.getD]
  · have h := (C4_cross_sample_positional [fun _ _ _ => (4 : ℚ)]
      [fun _ _ _ => (-10 : ℚ)] (1 / 100000000) 0 0 0).2.1 0 (by decide)
    rw [h]
    norm_num [maxImagePos, zeroTensor, max_def, List.getD]

/-- C5: the within-sample pass runs on the output of the completed
cross-sample pass and divides each channel of each sample by that channel's
own maximum absolute value plus epsilon; consequently every channel of every
final normalized sample has maximum absolute value at most 1 on the crop
window. -/
theorem C5_within_pass_postcondition (H W : Nat) (train_data test_data : List Tensor)
    (epsilon : ℚ) (heps : 0 < epsilon) :
    ((normalize H W train_data test_data epsilon).1 =
        (crossPass train_data test_data epsilon).1.map (withinPass H W epsilon) ∧
      (normalize H W train_data test_data epsilon).2 =
        (crossPass train_data test_data epsilon).2.map (withinPass H W epsilon)) ∧
    (∀ t : Tensor, ∀ i j c : Nat,
        withinPass H W epsilon t i j c = t i j c / (channelMaxAbs H W t c + epsilon)) ∧
    (∀ s, (s ∈ (normalize H W train_data test_data epsilon).1 ∨
           s ∈ (normalize H W train_data test_data epsilon).2) →
      ∀ c i j, i < H → j < W → |s i j c| ≤ 1) := by
  have h1 : (normalize H W train_data test_data epsilon).1 =
      (crossPass train_data test_data epsilon).1.map (withinPass H W epsilon) := rfl
  have h2 : (normalize H W train_data test_data epsilon).2 =
      (crossPass train_data test_data epsilon).2.map (withinPass H W epsilon) := rfl
  refine ⟨⟨h1, h2⟩, fun t i j c => rfl, ?_⟩
  intro s hs c i j hi hj
  have hmem : ∃ t, s = withinPass H W epsilon t := by
    rcases hs with hs | hs
    · rw [h1] at hs
      rcases List.mem_map.mp hs with ⟨t, _, ht⟩
      exact ⟨t, ht.symm⟩
    · rw [h2] at hs
      rcases List.mem_map.mp hs with ⟨t, _, ht⟩
      exact ⟨t, ht.symm⟩
  obtain ⟨t, rfl⟩ := hmem
  exact abs_withinPass_le_one H W epsilon heps t c i j hi hj

/-- Witness for C5 with epsilon 1e-8 and one concrete sample. -/
theorem C5_witness :
    (0 : ℚ) < 1 / 100000000 ∧
    (∀ s, (s ∈ (normalize 1 1 [fun _ _ _ => (4 : ℚ)] [] (1 / 100000000)).1 ∨
           s ∈ (normalize 1 1 [fun _ _ _ => (4 : ℚ)] [] (1 / 100000000)).2) →
      ∀ c i j, i < 1 → j < 1 → |s i j c| ≤ 1) :=
  ⟨by norm_num,
   (C5_within_pass_postcondition 1 1 [fun _ _ _ => (4 : ℚ)] [] (1 / 100000000)
     (by norm_num)).2.2⟩

theorem getD_zipWith_fun {α β γ : Type} (g : α → β → γ) (xs : List α) (ys : List β)
    (k : Nat) (hx : k < xs.length) (hy : k < ys.length) (d : γ) (dx : α) (dy : β) :
    (List.zipWith g xs ys).getD k d = g (xs.getD k dx) (ys.getD k dy) := by
  induction xs generalizing ys k with
  | nil => simp at hx
  | cons a xs ih =>
    cases ys with
    | nil => simp at hy
    | cons b ys =>
      cases k with
      | zero => rfl
      | succ k =>
        have hx' : k < xs.length := by simpa using hx
        have hy' : k < ys.length := by simpa using hy
        simpa using ih ys k hx' hy'

theorem getD_append_lt {α : Type} (xs ys : List α) (k : Nat) (hk : k < xs.length)
    (d : α) : (xs ++ ys).getD k d = xs.getD k d := by
  induction xs generalizing k with
  | nil => simp at hk
  | cons a xs ih =>
    cases k with
    | zero => rfl
    | succ k =>
      have hk' : k < xs.length := by simpa using hk
      simpa using ih k hk'

theorem getD_append_add {α : Type} (xs ys : List α) (k : Nat) (d : α) :
    (xs ++ ys).getD (xs.length + k) d = ys.getD k d := by
  induction xs with
  | nil => simp
  | cons a xs ih =>
    have hstep : (a :: xs).length + k = (xs.length + k) + 1 := by
      simp [Nat.succ_add]
    rw [hstep]
    simpa using ih

/-- C6 counterexample: the claim says non-finite values are replaced with
zero, but `np.nan_to_num` maps positive infinity to the largest finite
double, so a map holding a single `+inf` cell under a mask of 1 aggregates to
that huge value, not to zero. -/
theorem C6_counterexample :
    aggregate_tensor [("f", [[RawVal.posinf]])] [[1]] ["f"] 1 1 ≠ some [[[0]]] ∧
    aggregate_tensor [("f", [[RawVal.posinf]])] [[1]] ["f"] 1 1 =
      some [[[(2 ^ 53 - 1) * 2 ^ 971]]] := by
  constructor <;>
    norm_num [aggregate_tensor, stackChannels, crop, maskFeature, nan_to_num, maxFloat,
      List.lookup]

/-- C6 (amended): for every sample, NaN cells of each loaded feature map are
replaced with zero and infinite cells with the largest-magnitude finite
double (not zero); the cleaned map is multiplied elementwise by the mask
before cropping; each masked 2-D map is cropped top-left aligned to the crop
shape with excess discarded, a map smaller than the crop shape is an error
that aborts the aggregation (never padded); and the cropped channels are
stacked in canonical feature-name order. -/
theorem C6_imaging_aggregation (sample : List (String × List (List RawVal)))
    (mask : List (List ℚ)) (feature_names : List String) (h w : Nat) :
    (nan_to_num RawVal.nan = 0 ∧ (∀ q, nan_to_num (RawVal.val q) = q) ∧
      nan_to_num RawVal.posinf = maxFloat ∧ nan_to_num RawVal.neginf = -maxFloat) ∧
    (∀ fmap i j, i < fmap.length → i < mask.length →
      j < (fmap.getD i []).length → j < (mask.getD i []).length →
      ((maskFeature mask fmap).getD i []).getD j 0 =
        nan_to_num ((fmap.getD i []).getD j RawVal.nan) * ((mask.getD i []).getD j 0)) ∧
    (∀ out, aggregate_tensor sample mask feature_names h w = some out →
      out.length = feature_names.length ∧
      ∀ k, k < feature_names.length →
        ∃ fmap ch, sample.lookup (feature_names.getD k "") = some fmap ∧
          crop h w (maskFeature mask fmap) = some ch ∧ out.getD k [] = ch) ∧
    (∀ name fmap, name ∈ feature_names → sample.lookup name = some fmap →
      crop h w (maskFeature mask fmap) = none →
      aggregate_tensor sample mask feature_names h w = none) ∧
    (∀ m : List (List ℚ),
      (∀ r, crop h w m = some r → r = (m.take h).map (fun row => row.take w)) ∧
      (crop h w m = none ↔ ¬(h ≤ m.length ∧ ∀ row ∈ m.take h, w ≤ row.length))) := by
  refine ⟨⟨rfl, fun q => rfl, rfl, rfl⟩, ?_, ?_, ?_, ?_⟩
  · intro fmap i j hif him hjf hjm
    have hrow : (maskFeature mask fmap).getD i [] =
        List.zipWith (fun v m => nan_to_num v * m) (fmap.getD i []) (mask.getD i []) := by
      show (List.zipWith _ fmap mask).getD i [] = _
      rw [getD_zipWith_fun _ fmap mask i hif him [] [] []]
    rw [hrow, getD_zipWith_fun _ _ _ j hjf hjm 0 RawVal.nan 0]
  · intro out hout
    obtain ⟨hlen, hidx⟩ := stackChannels_ok _ feature_names out hout
    refine ⟨hlen, ?_⟩
    intro k hk
    obtain ⟨ch, hch, hout'⟩ := hidx k hk
    rcases Option.bind_eq_some.mp hch with ⟨fmap, hf1, hf2⟩
    exact ⟨fmap, ch, hf1, hf2, hout'⟩
  · intro name fmap hname hlook hcrop
    refine stackChannels_none _ feature_names name hname ?_
    rw [hlook]
    simpa using hcrop
  · intro m
    constructor
    · intro r hr
      by_cases hc : h ≤ m.length ∧ ∀ row ∈ m.take h, w ≤ row.length
      · rw [crop, if_pos hc] at hr
        exact (Option.some.inj hr).symm
      · rw [crop, if_neg hc] at hr
        exact absurd hr (by simp)
    · by_cases hc : h ≤ m.length ∧ ∀ row ∈ m.take h, w ≤ row.length <;>
        simp [crop, hc]

/-- Witness for the amended C6: a concrete 1 x 1 sample aggregates to its
masked value, and raising the crop height above the map size aborts with an
error rather than padding. -/
theorem C6_witness :
    (aggregate_tensor [("a", [[RawVal.val 2]])] [[3]] ["a"] 1 1 = some [[[6]]]) ∧
    (([[[(6 : ℚ)]]] : List (List (List ℚ))).length = (["a"] : List String).length) ∧
    (("a" : String) ∈ (["a"] : List String) ∧
      ([("a", [[RawVal.val 2]])] : List (String × List (List RawVal))).lookup "a" =
        some [[RawVal.val 2]] ∧
      crop 2 1 (maskFeature [[3]] [[RawVal.val 2]]) = none ∧
      aggregate_tensor [("a", [[RawVal.val 2]])] [[3]] ["a"] 2 1 = none) := by
  have hagg : aggregate_tensor [("a", [[RawVal.val 2]])] [[3]] ["a"] 1 1 = some [[[6]]] := by
    norm_num [aggregate_tensor, stackChannels, crop, maskFeature, nan_to_num, List.lookup]
  have hcrop : crop 2 1 (maskFeature [[3]] [[RawVal.val 2]]) = none := by
    norm_num [crop, maskFeature, nan_to_num]
  refine ⟨hagg, ?_, by decide, by rfl, hcrop, ?_⟩
  · exact ((C6_imaging_aggregation [("a", [[RawVal.val 2]])] [[3]] ["a"] 1 1).2.2.1
      [[[6]]] hagg).1
  · exact (C6_imaging_aggregation [("a", [[RawVal.val 2]])] [[3]] ["a"] 2 1).2.2.2.1
      "a" [[RawVal.val 2]] (by decide) (by rfl) hcrop

/-- C7: the tabular vector is the mean row's values selected in feature-name
order followed by the std row's values in the same order, concatenated, so
its length is twice the number of feature names, the k-th entry is the mean
value of the k-th feature and the (|F|+k)-th entry its std value. -/
theorem C7_tabular_vector (mean_row std_row : List (String × ℚ))
    (feature_names : List String) (mv sv : List ℚ)
    (hm : selectRow mean_row feature_names = some mv)
    (hs : selectRow std_row feature_names = some sv) :
    aggregate_statistics mean_row std_row feature_names = some (mv ++ sv) ∧
    (mv ++ sv).length = 2 * feature_names.length ∧
    (∀ k, k < feature_names.length →
      mean_row.lookup (feature_names.getD k "") = some ((mv ++ sv).getD k 0)) ∧
    (∀ k, k < feature_names.length →
      std_row.lookup (feature_names.getD k "") =
        some ((mv ++ sv).getD (feature_names.length + k) 0)) := by
  obtain ⟨hmlen, hmidx⟩ := selectRow_ok mean_row feature_names mv hm
  obtain ⟨hslen, hsidx⟩ := selectRow_ok std_row feature_names sv hs
  refine ⟨?_, ?_, ?_, ?_⟩
  · simp [aggregate_statistics, hm, hs]
  · rw [List.length_append, hmlen, hslen]
    omega
  · intro k hk
    rw [hmidx k hk]
    have hklt : k < mv.length := by rw [hmlen]; exact hk
    rw [getD_append_lt mv sv k hklt]
  · intro k hk
    rw [hsidx k hk]
    have hfe : feature_names.length = mv.length := hmlen.symm
    rw [hfe, getD_append_add mv sv k]

/-- Witness for C7 at the spec's scenario: names [a, b, c], mean row
{a:1, b:2, c:3}, std row {a:0.1, b:0.2, c:0.3} gives exactly
[1, 2, 3, 0.1, 0.2, 0.3]. -/
theorem C7_witness :
    (selectRow [("a", 1), ("b", 2), ("c", 3)] ["a", "b", "c"] = some [1, 2, 3] ∧
      selectRow [("a", 1 / 10), ("b", 2 / 10), ("c", 3 / 10)] ["a", "b", "c"] =
        some [1 / 10, 2 / 10, 3 / 10]) ∧
    aggregate_statistics [("a", 1), ("b", 2), ("c", 3)]
        [("a", 1 / 10), ("b", 2 / 10), ("c", 3 / 10)] ["a", "b", "c"] =
      some [1, 2, 3, 1 / 10, 2 / 10, 3 / 10] := by
  refine ⟨⟨by rfl, by rfl⟩, ?_⟩
  have h := (C7_tabular_vector [("a", 1), ("b", 2), ("c", 3)]
    [("a", 1 / 10), ("b", 2 / 10), ("c", 3 / 10)] ["a", "b", "c"]
    [1, 2, 3] [1 / 10, 2 / 10, 3 / 10] (by rfl) (by rfl)).1
  simpa using h

/-- C8: rows with missing values are dropped from both tables, and a sample
whose mean or std table becomes empty after dropping contributes nothing at
all to the output — no vector, no patient id, no label — while the three
output lists always stay in lockstep. -/
theorem C8_skip_policy (patient_id_to_case : Nat → Bool) (feature_names : List String)
    (s : TabularSample) (rest : List TabularSample)
    (hempty : (dropna s.mean_table).length = 0 ∨ (dropna s.std_table).length = 0) :
    processTabular patient_id_to_case feature_names (s :: rest) =
      processTabular patient_id_to_case feature_names rest ∧
    (∀ t (row : List (String × Option ℚ)),
      row ∈ dropna t ↔ (row ∈ t ∧ ∀ cell ∈ row, cell.2.isSome = true)) ∧
    (∀ out, processTabular patient_id_to_case feature_names rest = some out →
      out.1.length = out.2.1.length ∧ out.2.1.length = out.2.2.length) := by
  refine ⟨?_, ?_, ?_⟩
  · simp only [processTabular]
    rw [if_pos hempty]
  · intro t row
    simp [dropna, List.mem_filter, List.all_eq_true]
  · intro out hout
    exact processTabular_lengths _ _ _ _ hout

/-- Witness for C8: a sample whose only mean row has a missing value is
skipped entirely. -/
theorem C8_witness :
    (dropna [[("a", (none : Option ℚ))]]).length = 0 ∧
    processTabular (fun _ => true) ["a"]
        [TabularSample.mk 7 [[("a", none)]] [[("a", some 1)]]] =
      processTabular (fun _ => true) ["a"] [] := by
  refine ⟨by decide, ?_⟩
  exact (C8_skip_policy (fun _ => true) ["a"]
    (TabularSample.mk 7 [[("a", none)]] [[("a", some 1)]]) []
    (Or.inl (by decide))).1

/-- C9: if any filename of the scanned directory fails the feature-name
pattern, `discover_feature_names` fails with a `NamingConventionError`
carrying an offending filename; on success no filename was skipped: every
filename contributes its extracted name to the result. -/
theorem C9_naming_convention_failure (filenames : List String) :
    (∀ f ∈ filenames, extractFeatureName f = none →
      ∃ g ∈ filenames, extractFeatureName g = none ∧
        discover_feature_names filenames = Except.error g) ∧
    (∀ names, discover_feature_names filenames = Except.ok names →
      names.length = filenames.length ∧
      ∀ f ∈ filenames, ∃ n, extractFeatureName f = some n ∧ n ∈ names) := by
  constructor
  · intro f hf hx
    obtain ⟨g, hg, hgnone, hcol⟩ := collectFeatureNames_error filenames f hf hx
    exact ⟨g, hg, hgnone, by simp [discover_feature_names, hcol]⟩
  · intro names hnames
    cases hcol : collectFeatureNames filenames with
    | error g => simp [discover_feature_names, hcol] at hnames
    | ok ns =>
      have hnames' : names = ns.insertionSort (fun a b => a ≤ b) := by
        rw [discover_feature_names, hcol] at hnames
        exact (Except.ok.inj hnames).symm
      obtain ⟨hlen, hmem⟩ := collectFeatureNames_ok filenames ns hcol
      have hperm : (ns.insertionSort (fun a b => a ≤ b)).Perm ns :=
        List.perm_insertionSort _ _
      constructor
      · rw [hnames', hperm.length_eq, hlen]
      · intro f hf
        obtain ⟨n, hn1, hn2⟩ := hmem f hf
        refine ⟨n, hn1, ?_⟩
        rw [hnames']
        exact hperm.mem_iff.mpr hn2

/-- Witness for C9: a non-matching filename produces the error carrying it,
and a matching one contributes its extracted feature name. -/
theorem C9_witness :
    (extractFeatureName "bad.txt" = none ∧
      ∃ g ∈ (["bad.txt"] : List String), extractFeatureName g = none ∧
        discover_feature_names ["bad.txt"] = Except.error g) ∧
    (discover_feature_names ["p_norm_abc.nii.gz"] = Except.ok ["abc"] ∧
      (["abc"] : List String).length = (["p_norm_abc.nii.gz"] : List String).length ∧
      ∀ f ∈ (["p_norm_abc.nii.gz"] : List String),
        ∃ n, extractFeatureName f = some n ∧ n ∈ (["abc"] : List String)) := by
  refine ⟨⟨by decide, ?_⟩, ⟨by rfl, ?_, ?_⟩⟩
  · exact (C9_naming_convention_failure ["bad.txt"]).1 "bad.txt"
      (List.mem_cons_self _ _) (by decide)
  · exact ((C9_naming_convention_failure ["p_norm_abc.nii.gz"]).2 ["abc"] (by rfl)).1
  · exact ((C9_naming_convention_failure ["p_norm_abc.nii.gz"]).2 ["abc"] (by rfl)).2

end CIS537
